import Mathlib

/-!
Verification of the tft-app note-store (src/renderer/renderer.js).

The repository keeps an in-memory store `notesData` (a JavaScript object
mapping comp name to record) mirrored to a JSON file, plus UI operations:
load/normalize, add, rename, delete, clipboard import, search/filter and
a planner matcher.  This file shallowly embeds those operations.

JSON/JavaScript values are modelled by the inductive `JVal`.  JavaScript
objects are insertion-ordered string-keyed maps, modelled as association
lists.  Arrays may carry extra named own-properties (JS allows assigning
`arr.notes = ...`), so `jarr` carries both elements and a property list;
values produced by `JSON.parse` always have an empty property list.
Numbers are modelled as integers (the code never does arithmetic on
record fields, only truthiness tests).
-/

namespace TftApp

/-!  JavaScript string primitives, implemented structurally on `List Char`
(kernel-computable).  `strLower` models `toLowerCase` on the ASCII range,
`strTrim` models `trim`, `splitComma` models `split(',')`, `splitWsChars`
refines `split(/\s+/)` (it splits at every whitespace character, which
agrees with the regex split once empty tokens are dropped, as every use
site does), `includesChars` models `String.prototype.includes`, and
`replaceAll` models the `split(pat).join(rep)` idiom (all non-overlapping
occurrences, left to right). -/

/-- `toLowerCase` of one character (ASCII letters). -/
def charLower (c : Char) : Char :=
  if 'A' ≤ c ∧ c ≤ 'Z' then Char.ofNat (c.toNat + 32) else c

/-- JS `toLowerCase` (the store's names, items and tags are ASCII). -/
def strLower (s : String) : String := ⟨s.data.map charLower⟩

/-- Drop whitespace from both ends of a character list. -/
def trimChars (l : List Char) : List Char :=
  ((l.dropWhile Char.isWhitespace).reverse.dropWhile Char.isWhitespace).reverse

/-- JS `trim`. -/
def strTrim (s : String) : String := ⟨trimChars s.data⟩

/-- `split(',')` on the character level. -/
def splitCommaAux : List Char → List Char → List String
  | [], acc => [⟨acc.reverse⟩]
  | c :: rest, acc =>
    if c = ',' then ⟨acc.reverse⟩ :: splitCommaAux rest []
    else splitCommaAux rest (c :: acc)

/-- JS `split(',')` (the empty string yields `[""]`, as in JS). -/
def splitComma (s : String) : List String := splitCommaAux s.data []

/-- Split at every whitespace character. -/
def splitWsAux : List Char → List Char → List String
  | [], acc => [⟨acc.reverse⟩]
  | c :: rest, acc =>
    if c.isWhitespace then ⟨acc.reverse⟩ :: splitWsAux rest []
    else splitWsAux rest (c :: acc)

/-- `split` on whitespace (see section comment). -/
def splitWsChars (s : String) : List String := splitWsAux s.data []

/-- Whether `pat` is a prefix of `l`. -/
def isPrefixChars : List Char → List Char → Bool
  | [], _ => true
  | _ :: _, [] => false
  | a :: as, b :: bs => a = b && isPrefixChars as bs

/-- Whether `sub` occurs inside `l` (at any position). -/
def includesChars (sub : List Char) : List Char → Bool
  | [] => isPrefixChars sub []
  | c :: rest => isPrefixChars sub (c :: rest) || includesChars sub rest

/-- JS `String.prototype.includes`. -/
def jsIncludes (s sub : String) : Bool := includesChars sub.data s.data

/-- Replace all non-overlapping occurrences of `pat` (non-empty) in the
input, left to right; the fuel (the input length) always suffices since
every step consumes at least one character. -/
def replaceAllAux (pat rep : List Char) : Nat → List Char → List Char
  | 0, l => l
  | fuel + 1, l =>
    match l with
    | [] => []
    | c :: rest =>
      if isPrefixChars pat (c :: rest) then
        rep ++ replaceAllAux pat rep fuel ((c :: rest).drop pat.length)
      else c :: replaceAllAux pat rep fuel rest

/-- JS `s.split(pat).join(rep)`.  An empty pattern is treated as the
identity (the image filenames substituted on import are never empty). -/
def replaceAll (s pat rep : String) : String :=
  if pat = "" then s
  else ⟨replaceAllAux pat.data rep.data s.data.length s.data⟩

/-- Decimal digit character. -/
def decDigitChar (d : Nat) : Char := Char.ofNat (48 + d)

/-- Decimal printing of a natural number, fuelled (fuel `n + 1` always
suffices since `n / 10 < n` for `n ≥ 10`).  This is the string JS
produces when a number is coerced to a string. -/
def natDecAux : Nat → Nat → List Char
  | 0, _ => []
  | fuel + 1, n =>
    if n < 10 then [decDigitChar n]
    else natDecAux fuel (n / 10) ++ [decDigitChar (n % 10)]

/-- Decimal representation of a natural number. -/
def natDec (n : Nat) : String := ⟨natDecAux (n + 1) n⟩

inductive JVal where
  | jnull : JVal
  | jbool : Bool → JVal
  | jnum : Int → JVal
  | jstr : String → JVal
  | jarr : List JVal → List (String × JVal) → JVal
  | jobj : List (String × JVal) → JVal
  deriving Repr

open JVal

/-- Lookup in an association list (JS object property read; first match). -/
def getEntry (props : List (String × JVal)) (k : String) : Option JVal :=
  match props with
  | [] => none
  | p :: rest => if p.1 = k then some p.2 else getEntry rest k

/-- JS property write: update the existing key in place, else append. -/
def setEntry (props : List (String × JVal)) (k : String) (v : JVal) :
    List (String × JVal) :=
  match props with
  | [] => [(k, v)]
  | p :: rest => if p.1 = k then (k, v) :: rest else p :: setEntry rest k v

/-- JS `delete obj[k]` (association lists from `JSON.parse` have unique keys,
so removing every entry with key `k` agrees with removing the one entry). -/
def delEntry (props : List (String × JVal)) (k : String) : List (String × JVal) :=
  props.filter (fun p => p.1 ≠ k)

/-- JS `k in obj` / truthiness of a lookup used as a presence test. -/
def jsHas (props : List (String × JVal)) (k : String) : Bool :=
  (getEntry props k).isSome

/-- JS truthiness. -/
def JVal.truthy : JVal → Bool
  | jnull => false
  | jbool b => b
  | jnum n => n != 0
  | jstr s => s ≠ ""
  | jarr _ _ => true
  | jobj _ => true

/-- JS `typeof v === 'object'` (true for null, arrays and plain objects). -/
def JVal.isObjTy : JVal → Bool
  | jnull => true
  | jarr _ _ => true
  | jobj _ => true
  | _ => false

/-- Property read `v.k` (only objects and arrays have named properties;
the four property names the code reads are never numeric indices). -/
def JVal.getProp : JVal → String → Option JVal
  | jobj props, k => getEntry props k
  | jarr _ props, k => getEntry props k
  | _, _ => none

/-- Property write `v.k = x` (a write to a primitive is silently dropped in
non-strict JS; the code only ever writes to objects and arrays). -/
def JVal.setProp : JVal → String → JVal → JVal
  | jobj props, k, x => jobj (setEntry props k x)
  | jarr elems props, k, x => jarr elems (setEntry props k x)
  | v, _, _ => v

/-- JS `'k' in v`. -/
def JVal.hasProp (v : JVal) (k : String) : Bool :=
  (v.getProp k).isSome

/-- `Array.isArray` applied to a property read (absent reads give
`undefined`, which is not an array). -/
def isArrayOpt : Option JVal → Bool
  | some (jarr _ _) => true
  | _ => false

/-- Truthiness of a property read (absent reads give `undefined`, falsy). -/
def truthyOpt : Option JVal → Bool
  | some v => v.truthy
  | none => false

/-- Whether a value is a string. -/
def JVal.isStr : JVal → Bool
  | jstr _ => true
  | _ => false

/-- One conditional field fill, the shape of each normalization statement
(`if (!pred(val.k)) val.k = x;`): keep the value when the predicate holds
of the property read, else write the default. -/
def fillField (pred : Option JVal → Bool) (k : String) (x : JVal) (v : JVal) :
    JVal :=
  if pred (v.getProp k) then v else v.setProp k x

/-- `normalizeNotesData`'s per-record body (renderer.js:150-168): an object
(or array) value gets missing `notes` filled with `""` (a presence test,
not a type test), non-array `items` and `tags` replaced by `[]`, and falsy
`lastEdited` replaced by now; any other value is upgraded to a structured
record whose `notes` is the value itself when it is a string, else `""`. -/
def normalizeVal (now : String) (val : JVal) : JVal :=
  if val.truthy && val.isObjTy then
    fillField truthyOpt "lastEdited" (jstr now)
      (fillField isArrayOpt "tags" (jarr [] [])
        (fillField isArrayOpt "items" (jarr [] [])
          (fillField Option.isSome "notes" (jstr "") val)))
  else
    jobj [("notes", match val with | jstr s => jstr s | _ => jstr ""),
          ("items", jarr [] []),
          ("tags", jarr [] []),
          ("lastEdited", jstr now)]

/-- `normalizeNotesData` (renderer.js:150-168): normalize every record of
the in-memory store. -/
def normalizeNotesData (now : String) (st : List (String × JVal)) :
    List (String × JVal) :=
  st.map (fun p => (p.1, normalizeVal now p.2))

/-- `Object.keys` enumeration of a parsed top-level document: for an array,
integer indices come first (as decimal strings) and then named properties;
for an object, its properties in insertion order. -/
def topEntries : JVal → List (String × JVal)
  | jobj props => props
  | jarr elems props => (elems.enum.map (fun p => (natDec p.1, p.2))) ++ props
  | _ => []

/-- The state of the notes file on disk: absent, present but not valid
JSON, or present with parsed content `v`. -/
inductive DiskFile where
  | missing : DiskFile
  | corrupt : String → DiskFile
  | parsed : JVal → DiskFile
  deriving Repr

/-- `loadNotes` (renderer.js:171-191).  Returns the in-memory store and the
file state afterwards.  `writeOk` tells whether the `writeFileSync` in the
missing-file branch succeeds (a failing write is caught and leaves the
store empty and the file absent).  When the file is present but does not
parse, `JSON.parse` throws, the catch sets the store to `{}`, and no write
happens, so the file keeps its corrupt content.  A parsed document that is
falsy or not of object type is replaced by `{}` before normalization. -/
def loadNotes (disk : DiskFile) (now : String) (writeOk : Bool) :
    List (String × JVal) × DiskFile :=
  match disk with
  | .missing => if writeOk then ([], .parsed (jobj [])) else ([], .missing)
  | .corrupt raw => ([], .corrupt raw)
  | .parsed v =>
    if v.truthy && v.isObjTy then (normalizeNotesData now (topEntries v), .parsed v)
    else ([], .parsed v)

/-- Outcome reported by a mutating UI operation (alert/toast/success). -/
inductive OpResult where
  | ok : OpResult
  | invalidName : OpResult
  | duplicate : OpResult
  | lastRecord : OpResult
  | notFound : OpResult
  | writeFailed : OpResult
  deriving Repr, DecidableEq

/-- In-memory store together with the (parsed) content of the notes file on
disk.  `disk` is the store snapshot held by the last successful write. -/
structure AppState where
  store : List (String × JVal)
  disk : List (String × JVal)
  deriving Repr

/-- The fresh record inserted by `addComp` (renderer.js:1101-1106). -/
def freshRecord (now : String) : JVal :=
  jobj [("notes", jstr ""), ("items", jarr [] []), ("tags", jarr [] []),
        ("lastEdited", jstr now)]

/-- `addComp` (renderer.js:1081-1123): trims the typed name, lowercases it,
rejects duplicates, inserts a fresh record and writes the file.  A failing
write alerts and returns with the store still holding the new record (the
code has no rollback here).  The UI-only pre-save of the currently open
comp is the identity on a store whose open record mirrors the editor. -/
def addComp (s : AppState) (rawName now : String) (writeOk : Bool) :
    OpResult × AppState :=
  let compName := strTrim rawName
  if compName = "" then (.invalidName, s)
  else
    let trimmedName := strLower compName
    if jsHas s.store trimmedName then (.duplicate, s)
    else
      let store' := setEntry s.store trimmedName (freshRecord now)
      if writeOk then (.ok, ⟨store', store'⟩)
      else (.writeFailed, ⟨store', s.disk⟩)

/-- `finishRename` (renderer.js:852-878): trims and lowercases the new
name; empty is invalid, equal to the old key reports success untouched,
an existing key is a duplicate; otherwise the record moves to the new key
with `lastEdited` bumped and the file is written.  A failing write is
caught and merely reported: the code does NOT roll the move back.  When
`oldKey` is absent the JS code throws while renaming (the callers only
pass the currently open, hence present, key); that branch is modelled as
an error leaving the state unchanged. -/
def finishRename (s : AppState) (oldKey newRaw now : String) (writeOk : Bool) :
    OpResult × AppState :=
  let newKey := strLower (strTrim newRaw)
  if newKey = "" then (.invalidName, s)
  else if newKey = oldKey then (.ok, s)
  else if jsHas s.store newKey then (.duplicate, s)
  else
    match getEntry s.store oldKey with
    | none => (.writeFailed, s)
    | some rec =>
      let store' := delEntry (setEntry s.store newKey
        (rec.setProp "lastEdited" (jstr now))) oldKey
      if writeOk then (.ok, ⟨store', store'⟩)
      else (.writeFailed, ⟨store', s.disk⟩)

/-- `deleteComp` (renderer.js:1145-1221): refuses to delete when the store
has at most one record; otherwise removes the record and writes the file.
A failing write restores the record in memory (re-adding the key, which
in JS lands at the end of the insertion order) and leaves the disk as it
was. -/
def deleteComp (s : AppState) (comp : String) (writeOk : Bool) :
    OpResult × AppState :=
  if s.store.length ≤ 1 then (.lastRecord, s)
  else
    match getEntry s.store comp with
    | none => (.notFound, s)
    | some compData =>
      let store' := delEntry s.store comp
      if writeOk then (.ok, ⟨store', store'⟩)
      else (.writeFailed, ⟨setEntry store' comp compData, s.disk⟩)

/-!  Clipboard import (renderer.js:486-574). -/

/-- The candidate import name tried at step `i` (renderer.js:533):
`base-imported` for `i = 1`, `base-imported-i` for `i ≥ 2`. -/
def candName (base : String) (i : Nat) : String :=
  base ++ "-imported" ++ (if i > 1 then "-" ++ natDec i else "")

/-- The `while` loop of renderer.js:533, fuelled: returns the first
candidate name not present in the store.  Fuel `st.length + 1` always
suffices: the candidates are pairwise distinct, so at most `st.length`
of them can be store keys. -/
def firstFreeAux (st : List (String × JVal)) (base : String) :
    Nat → Nat → String
  | 0, i => candName base i
  | fuel + 1, i =>
    if jsHas st (candName base i) then firstFreeAux st base fuel (i + 1)
    else candName base i

/-- The collision-safe target name for an imported comp
(renderer.js:529-535): the payload name itself when free, else the first
free `-imported` candidate. -/
def importTarget (st : List (String × JVal)) (name : String) : String :=
  if jsHas st name then firstFreeAux st name (st.length + 1) 1 else name

/-- The best-effort image-path rewriting (renderer.js:538-542): for each
written image `(orig, new)`, every occurrence of the three textual forms
of `orig` inside the notes HTML is substituted. -/
def rewriteNotes (writtenImages : List (String × String)) (notes : String) :
    String :=
  writtenImages.foldl (fun acc p =>
    let acc1 := replaceAll acc ("../data/images/" ++ p.1) ("../data/images/" ++ p.2)
    let acc2 := replaceAll acc1 ("data/images/" ++ p.1) ("../data/images/" ++ p.2)
    replaceAll acc2 p.1 p.2) notes

/-- The conditional notes rewriting applied to an imported record
(renderer.js:536-544): only when the record is a truthy object with
truthy `notes` and at least one image was written.  The code would throw
on a truthy non-string `notes` (`split` on a non-string); payload records
always carry string notes, and a non-string is left unchanged here. -/
def importRewrite (writtenImages : List (String × String)) (data : JVal) :
    JVal :=
  if data.truthy && data.isObjTy && truthyOpt (data.getProp "notes")
      && !writtenImages.isEmpty then
    match data.getProp "notes" with
    | some (jstr s) => data.setProp "notes" (jstr (rewriteNotes writtenImages s))
    | _ => data
  else data

/-- The import-time record normalization (renderer.js:545-551).  Unlike
`normalizeVal`, it does not touch `tags`, and the bare-value branch does
not create a `tags` field at all. -/
def importNormalize (now : String) (data : JVal) : JVal :=
  if !(data.truthy && data.isObjTy) then
    jobj [("notes", match data with | jstr s => jstr s | _ => jstr ""),
          ("items", jarr [] []),
          ("lastEdited", jstr now)]
  else
    fillField truthyOpt "lastEdited" (jstr now)
      (fillField isArrayOpt "items" (jarr [] [])
        (fillField Option.isSome "notes" (jstr "") data))

/-- Processing of one imported comp (renderer.js:528-554): choose the
collision-safe target name, rewrite image paths, normalize, insert. -/
def importOne (now : String) (writtenImages : List (String × String))
    (st : List (String × JVal)) (entry : String × JVal) :
    List (String × JVal) :=
  setEntry st (importTarget st entry.1)
    (importNormalize now (importRewrite writtenImages entry.2))

/-- The in-memory merge performed by `importCompsFromClipboard`
(renderer.js:527-554); the merged store is then persisted in one write. -/
def importComps (st : List (String × JVal)) (payload : List (String × JVal))
    (writtenImages : List (String × String)) (now : String) :
    List (String × JVal) :=
  payload.foldl (importOne now writtenImages) st

/-!  Search, tag filter and planner (renderer.js:247-281, 364-374,
687-703).  These read the store after normalization; they are stated over
the canonical record shape of the data model (§3 of the spec): string
notes, string items, string tags.  The optional `color` field is not read
by any of these predicates and is omitted. -/

/-- Canonical comp record (spec §3). -/
structure CompRecord where
  notes : String
  items : List String
  tags : List String
  lastEdited : String
  deriving Repr, DecidableEq

/-- Scan for the next `'>'`; on success return the rest of the input after
it (the behaviour of the regex `<[^>]*>` at a `'<'`). -/
def findCloseTag : List Char → Option (List Char)
  | [] => none
  | c :: rest => if c = '>' then some rest else findCloseTag rest

/-- `html.replace(/<[^>]*>/g, ' ')` on the character list: each maximal
`<...>` group becomes one space; a `'<'` with no later `'>'` stays.  The
fuel (the input length) always suffices because each step consumes at
least one character. -/
def stripTagsAux : Nat → List Char → List Char
  | 0, _ => []
  | fuel + 1, l =>
    match l with
    | [] => []
    | c :: rest =>
      if c = '<' then
        match findCloseTag rest with
        | some rest' => ' ' :: stripTagsAux fuel rest'
        | none => c :: stripTagsAux fuel rest
      else c :: stripTagsAux fuel rest

/-- `.replace(/\s+/g, ' ')`: collapse every whitespace run to one space.
The flag records whether the previous character was whitespace. -/
def collapseWsAux : Bool → List Char → List Char
  | _, [] => []
  | prevWs, c :: rest =>
    if c.isWhitespace then
      if prevWs then collapseWsAux true rest
      else ' ' :: collapseWsAux true rest
    else c :: collapseWsAux false rest

/-- `stripHtml` (renderer.js:247-250): drop tags, collapse whitespace,
trim, lowercase. -/
def stripHtml (html : String) : String :=
  strLower (strTrim (String.mk
    (collapseWsAux false (stripTagsAux html.length html.data))))

/-- `getSearchTokens` (renderer.js:253-260): lowercase, split on
whitespace, drop empty tokens. -/
def getSearchTokens (query : String) : List String :=
  (((splitWsChars (strLower query))).map strTrim).filter (fun t => t ≠ "")

/-- `compMatchesSearch` (renderer.js:263-281): every search token must
occur as a substring of the lowercased name, the tag-stripped notes text,
some lowercased item, or some lowercased tag. -/
def compMatchesSearch (name : String) (r : CompRecord) (query : String) :
    Bool :=
  if strTrim query = "" then true
  else
    let tokens := getSearchTokens query
    if tokens.isEmpty then true
    else
      let compName := strLower name
      let notesText := stripHtml r.notes
      let items := r.items.map strLower
      let tags := r.tags.map strLower
      tokens.all (fun token =>
        jsIncludes compName token || jsIncludes notesText token ||
        items.any (fun i => jsIncludes i token) ||
        tags.any (fun t => jsIncludes t token))

/-- The per-comp filter of `createNavigation` (renderer.js:695-703):
search predicate, then tag filter (lowercased exact membership in the
record's tags). -/
def navFilterPred (searchQuery tagFilter : String) (p : String × CompRecord) :
    Bool :=
  if searchQuery ≠ "" && strTrim searchQuery ≠ ""
      && !compMatchesSearch p.1 p.2 searchQuery then false
  else if tagFilter ≠ "" && strTrim tagFilter ≠ "" then
    (p.2.tags.map strLower).contains (strLower tagFilter)
  else true

/-- Name order on store entries (`getCompOrder`, renderer.js:133-137,
sorts keys with `localeCompare`; modelled by the string order). -/
def keyLe (a b : String × CompRecord) : Prop := a.1 ≤ b.1

instance : DecidableRel keyLe := fun a b =>
  inferInstanceAs (Decidable (a.1 ≤ b.1))

instance : IsTotal (String × CompRecord) keyLe := ⟨fun a b => le_total a.1 b.1⟩

instance : IsTrans (String × CompRecord) keyLe :=
  ⟨fun _ _ _ h1 h2 => le_trans h1 h2⟩

/-- Name-sorted store (JS `Array.prototype.sort` is a stable comparison
sort; insertion sort is stable and agrees with it under a total order). -/
def sortByName (st : List (String × CompRecord)) :
    List (String × CompRecord) :=
  List.insertionSort keyLe st

/-- The record sequence the navigation displays for a search text and a
tag filter (`createNavigation`, renderer.js:694-703): the name-sorted
store filtered by the search and tag predicates. -/
def queryComps (st : List (String × CompRecord)) (searchQuery tagFilter : String) :
    List (String × CompRecord) :=
  (sortByName st).filter (navFilterPred searchQuery tagFilter)

/-- The owned-item list parsed from the planner input
(renderer.js:365-370): trim and lowercase the whole input, split on
commas, trim each piece, drop empties. -/
def plannerSelected (rawInput : String) : List String :=
  ((splitComma (strLower (strTrim rawInput))).map strTrim).filter
    (fun s => s ≠ "")

/-- `updatePlannerResults` (renderer.js:364-374): `none` when the input is
empty (the UI shows a prompt); otherwise the records whose `items`
contain every owned item, compared lowercased and by exact equality. -/
def plannerResults (st : List (String × CompRecord)) (rawInput : String) :
    Option (List (String × CompRecord)) :=
  if strLower (strTrim rawInput) = "" then none
  else some (st.filter (fun p =>
    (plannerSelected rawInput).all (fun item =>
      (p.2.items.map strLower).contains item)))

/-!  Specification-side definitions used to state the claims. -/

/-- Decoder for `natDecAux`'s output (decimal reading). -/
def decodeDec (l : List Char) : Nat :=
  l.foldl (fun acc c => acc * 10 + (c.toNat - 48)) 0

/-- The invariant Load's normalization establishes on a record value:
the `notes` and `lastEdited` fields are present and `items`/`tags` are
arrays.  (`notes` is only guaranteed present, not a string: the code's
check is `'notes' in val`.) -/
def recNormalized (v : JVal) : Prop :=
  v.hasProp "notes" = true ∧ isArrayOpt (v.getProp "items") = true ∧
  isArrayOpt (v.getProp "tags") = true ∧ v.hasProp "lastEdited" = true

/-- The weaker invariant import's normalization establishes: `notes` and
`lastEdited` present, `items` an array — and nothing about `tags`. -/
def recImportNormalized (v : JVal) : Prop :=
  v.hasProp "notes" = true ∧ isArrayOpt (v.getProp "items") = true ∧
  v.hasProp "lastEdited" = true

/-- The claim's per-token test: the token occurs case-insensitively in
the name, the tag-stripped notes text, some item, or some tag. -/
def specTokenMatch (name : String) (r : CompRecord) (tok : String) : Prop :=
  jsIncludes (strLower name) tok = true ∨
  jsIncludes (stripHtml r.notes) tok = true ∨
  (∃ it ∈ r.items, jsIncludes (strLower it) tok = true) ∨
  (∃ tg ∈ r.tags, jsIncludes (strLower tg) tok = true)

/-!  Helper lemmas: association-list operations. -/

theorem getEntry_setEntry_self (l : List (String × JVal)) (k : String) (v : JVal) :
    getEntry (setEntry l k v) k = some v := by
  induction l with
  | nil => simp [setEntry, getEntry]
  | cons p rest ih =>
    by_cases h : p.1 = k
    · simp [setEntry, h, getEntry]
    · simp [setEntry, h, getEntry, ih]

theorem getEntry_setEntry_ne (l : List (String × JVal)) {k k' : String}
    (hne : k' ≠ k) (v : JVal) : getEntry (setEntry l k v) k' = getEntry l k' := by
  have hkk : ¬ (k = k') := fun hh => hne hh.symm
  induction l with
  | nil => simp [setEntry, getEntry, hkk]
  | cons p rest ih =>
    by_cases h : p.1 = k
    · simp [setEntry, h, getEntry, hkk]
    · simp only [setEntry, h, if_false, getEntry]
      by_cases h2 : p.1 = k' <;> simp [h2, ih]

theorem getEntry_delEntry_self (l : List (String × JVal)) (k : String) :
    getEntry (delEntry l k) k = none := by
  induction l with
  | nil => simp [delEntry, getEntry]
  | cons p rest ih =>
    by_cases h : p.1 = k
    · simpa [delEntry, h] using ih
    · simpa [delEntry, getEntry, h] using ih

theorem getEntry_delEntry_ne (l : List (String × JVal)) {k k' : String}
    (hne : k' ≠ k) : getEntry (delEntry l k) k' = getEntry l k' := by
  have hkk : ¬ (k = k') := fun hh => hne hh.symm
  induction l with
  | nil => simp [delEntry]
  | cons p rest ih =>
    by_cases h : p.1 = k
    · simpa [delEntry, getEntry, h, hkk] using ih
    · by_cases h2 : p.1 = k' <;> simp_all [delEntry, getEntry]

theorem mem_setEntry {l : List (String × JVal)} {k : String} {v : JVal}
    {p : String × JVal} (h : p ∈ setEntry l k v) : p ∈ l ∨ p = (k, v) := by
  induction l with
  | nil => simpa [setEntry] using h
  | cons q rest ih =>
    by_cases hq : q.1 = k
    · simp only [setEntry, hq, if_true, List.mem_cons] at h
      rcases h with h | h
      · exact Or.inr h
      · exact Or.inl (List.mem_cons_of_mem _ h)
    · simp only [setEntry, hq, if_false, List.mem_cons] at h
      rcases h with h | h
      · exact Or.inl (h ▸ List.mem_cons_self _ _)
      · rcases ih h with h' | h'
        · exact Or.inl (List.mem_cons_of_mem _ h')
        · exact Or.inr h'

theorem jsHas_mem_keys {l : List (String × JVal)} {k : String}
    (h : jsHas l k = true) : k ∈ l.map Prod.fst := by
  induction l with
  | nil => simp [jsHas, getEntry] at h
  | cons p rest ih =>
    by_cases hp : p.1 = k
    · simp [hp]
    · simp only [jsHas, getEntry, hp, if_false] at h
      simpa using Or.inr (ih h)

/-!  Helper lemmas: decimal printing is injective, hence the candidate
names on import are pairwise distinct and the fuelled search mirrors the
unbounded JS `while` loop. -/

theorem decodeDec_append (l : List Char) (c : Char) :
    decodeDec (l ++ [c]) = decodeDec l * 10 + (c.toNat - 48) := by
  simp [decodeDec, List.foldl_append]

theorem decDigitChar_val {d : Nat} (h : d < 10) :
    (decDigitChar d).toNat - 48 = d := by
  interval_cases d <;> decide

theorem decodeDec_natDecAux : ∀ {fuel n : Nat}, n < fuel →
    decodeDec (natDecAux fuel n) = n := by
  intro fuel
  induction fuel with
  | zero => omega
  | succ fuel ih =>
    intro n h
    by_cases h10 : n < 10
    · simp [natDecAux, h10, decodeDec, decDigitChar_val h10]
    · have hdiv : n / 10 < n := Nat.div_lt_self (by omega) (by omega)
      have hfuel : n / 10 < fuel := by omega
      rw [natDecAux, if_neg h10, decodeDec_append, ih hfuel,
        decDigitChar_val (Nat.mod_lt n (by omega))]
      omega

theorem natDec_inj {m n : Nat} (h : natDec m = natDec n) : m = n := by
  have hd : natDecAux (m + 1) m = natDecAux (n + 1) n := congrArg String.data h
  have hm := decodeDec_natDecAux (Nat.lt_succ_self m)
  have hn := decodeDec_natDecAux (Nat.lt_succ_self n)
  rw [hd, hn] at hm
  exact hm.symm

theorem natDecAux_ne_nil (fuel n : Nat) : natDecAux (fuel + 1) n ≠ [] := by
  by_cases h10 : n < 10 <;> simp [natDecAux, h10]

theorem string_append_cancel_left {a b c : String} (h : a ++ b = a ++ c) :
    b = c := by
  have hd := congrArg String.data h
  simp only [String.data_append] at hd
  exact String.ext (List.append_cancel_left hd)

theorem dash_natDec_ne_empty (n : Nat) : "-" ++ natDec n ≠ "" := by
  intro h
  have hd := congrArg String.data h
  simp [String.data_append] at hd

theorem candName_inj {base : String} {i j : Nat} (hi : 1 ≤ i) (hj : 1 ≤ j)
    (h : candName base i = candName base j) : i = j := by
  simp only [candName] at h
  have hsfx : (if i > 1 then "-" ++ natDec i else "") =
      (if j > 1 then "-" ++ natDec j else "") :=
    string_append_cancel_left h
  rcases Nat.lt_or_ge 1 i with hi1 | hi1
  · rcases Nat.lt_or_ge 1 j with hj1 | hj1
    · rw [if_pos hi1, if_pos hj1] at hsfx
      exact natDec_inj (string_append_cancel_left hsfx)
    · have hj1' : j = 1 := by omega
      subst hj1'
      rw [if_pos hi1, if_neg (by omega : ¬ (1 : Nat) > 1)] at hsfx
      exact absurd hsfx (dash_natDec_ne_empty i)
  · have hi1' : i = 1 := by omega
    subst hi1'
    rcases Nat.lt_or_ge 1 j with hj1 | hj1
    · rw [if_neg (by omega : ¬ (1 : Nat) > 1), if_pos hj1] at hsfx
      exact absurd hsfx.symm (dash_natDec_ne_empty j)
    · omega

theorem exists_free_cand (st : List (String × JVal)) (base : String) :
    ∃ i, 1 ≤ i ∧ i ≤ st.length + 1 ∧ jsHas st (candName base i) = false := by
  by_contra hc
  push_neg at hc
  have hall : ∀ i, 1 ≤ i → i ≤ st.length + 1 →
      jsHas st (candName base i) = true := by
    intro i h1 h2
    have := hc i h1 h2
    cases h : jsHas st (candName base i)
    · exact absurd h this
    · rfl
  have hsub : ((List.range' 1 (st.length + 1)).map (candName base)) ⊆
      st.map Prod.fst := by
    intro x hx
    rcases List.mem_map.1 hx with ⟨i, hi, rfl⟩
    rcases List.mem_range'_1.1 hi with ⟨h1, h2⟩
    exact jsHas_mem_keys (hall i h1 (by omega))
  have hnd : ((List.range' 1 (st.length + 1)).map (candName base)).Nodup := by
    refine (List.nodup_range' 1 (st.length + 1)).map_on ?_
    intro x hx y hy hxy
    rcases List.mem_range'_1.1 hx with ⟨hx1, _⟩
    rcases List.mem_range'_1.1 hy with ⟨hy1, _⟩
    exact candName_inj hx1 hy1 hxy
  have hle := (hnd.subperm hsub).length_le
  simp only [List.length_map, List.length_range'] at hle
  omega

theorem firstFreeAux_spec (st : List (String × JVal)) (base : String) :
    ∀ (fuel start : Nat),
    (∃ i, start ≤ i ∧ i < start + fuel ∧ jsHas st (candName base i) = false) →
    ∃ i, start ≤ i ∧ firstFreeAux st base fuel start = candName base i ∧
      jsHas st (candName base i) = false ∧
      ∀ j, start ≤ j → j < i → jsHas st (candName base j) = true := by
  intro fuel
  induction fuel with
  | zero =>
    rintro start ⟨i, h1, h2, _⟩
    omega
  | succ fuel ih =>
    rintro start ⟨i, h1, h2, hfree⟩
    by_cases hh : jsHas st (candName base start) = true
    · have hne : i ≠ start := by
        intro he
        rw [he, hh] at hfree
        cases hfree
      obtain ⟨i', hi1, hi2, hi3, hi4⟩ :=
        ih (start + 1) ⟨i, by omega, by omega, hfree⟩
      refine ⟨i', by omega, ?_, hi3, ?_⟩
      · rw [firstFreeAux, if_pos hh]
        exact hi2
      · intro j hj1 hj2
        rcases Nat.eq_or_lt_of_le hj1 with he | hlt
        · rw [← he]; exact hh
        · exact hi4 j hlt hj2
    · have hh' : jsHas st (candName base start) = false := by
        cases h : jsHas st (candName base start)
        · rfl
        · exact absurd h hh
      refine ⟨start, le_refl _, ?_, hh', ?_⟩
      · rw [firstFreeAux, if_neg hh]
      · intro j hj1 hj2
        omega

theorem importTarget_of_free {st : List (String × JVal)} {name : String}
    (h : jsHas st name = false) : importTarget st name = name := by
  simp [importTarget, h]

theorem importTarget_spec_occupied {st : List (String × JVal)} {name : String}
    (h : jsHas st name = true) :
    ∃ i, 1 ≤ i ∧ importTarget st name = candName name i ∧
      jsHas st (candName name i) = false ∧
      ∀ j, 1 ≤ j → j < i → jsHas st (candName name j) = true := by
  obtain ⟨i, h1, h2, h3⟩ := exists_free_cand st name
  have := firstFreeAux_spec st name (st.length + 1) 1 ⟨i, h1, by omega, h3⟩
  simpa [importTarget, h] using this

theorem importTarget_not_has (st : List (String × JVal)) (name : String) :
    jsHas st (importTarget st name) = false := by
  cases h : jsHas st name
  · rw [importTarget_of_free h]
    exact h
  · obtain ⟨i, _, h2, h3, _⟩ := importTarget_spec_occupied h
    rw [h2]
    exact h3

/-!  Helper lemmas: property fills. -/

theorem truthy_objTy_cases {v : JVal} (h : (v.truthy && v.isObjTy) = true) :
    (∃ e p, v = jarr e p) ∨ (∃ p, v = jobj p) := by
  cases v with
  | jnull => simp [JVal.truthy] at h
  | jbool b => simp [JVal.truthy, JVal.isObjTy] at h
  | jnum n => simp [JVal.truthy, JVal.isObjTy] at h
  | jstr s => simp [JVal.truthy, JVal.isObjTy] at h
  | jarr e p => exact Or.inl ⟨e, p, rfl⟩
  | jobj p => exact Or.inr ⟨p, rfl⟩

theorem getProp_setProp_self {v : JVal} (h : (v.truthy && v.isObjTy) = true)
    (k : String) (x : JVal) : (v.setProp k x).getProp k = some x := by
  rcases truthy_objTy_cases h with ⟨e, p, rfl⟩ | ⟨p, rfl⟩ <;>
    simp [JVal.setProp, JVal.getProp, getEntry_setEntry_self]

theorem getProp_setProp_ne {v : JVal} {k k' : String} (hne : k' ≠ k)
    (x : JVal) : (v.setProp k x).getProp k' = v.getProp k' := by
  cases v <;> simp [JVal.setProp, JVal.getProp, getEntry_setEntry_ne _ hne]

theorem truthy_objTy_setProp {v : JVal} (h : (v.truthy && v.isObjTy) = true)
    (k : String) (x : JVal) :
    ((v.setProp k x).truthy && (v.setProp k x).isObjTy) = true := by
  rcases truthy_objTy_cases h with ⟨e, p, rfl⟩ | ⟨p, rfl⟩ <;> rfl

theorem truthy_objTy_fillField (pred : Option JVal → Bool) (k : String)
    (x : JVal) {v : JVal} (h : (v.truthy && v.isObjTy) = true) :
    ((fillField pred k x v).truthy && (fillField pred k x v).isObjTy) = true := by
  unfold fillField
  split
  · exact h
  · exact truthy_objTy_setProp h k x

theorem fillField_getProp_self (pred : Option JVal → Bool) (k : String)
    (x : JVal) {v : JVal} (h : (v.truthy && v.isObjTy) = true) :
    (fillField pred k x v).getProp k = some x ∨
    ((fillField pred k x v).getProp k = v.getProp k ∧
      pred (v.getProp k) = true) := by
  unfold fillField
  split
  next hp => exact Or.inr ⟨rfl, hp⟩
  next hp => exact Or.inl (getProp_setProp_self h k x)

theorem fillField_getProp_ne (pred : Option JVal → Bool) (k : String)
    (x : JVal) (v : JVal) {k' : String} (hne : k' ≠ k) :
    (fillField pred k x v).getProp k' = v.getProp k' := by
  unfold fillField
  split
  · rfl
  · exact getProp_setProp_ne hne x

theorem truthyOpt_isSome {o : Option JVal} (h : truthyOpt o = true) :
    o.isSome = true := by
  cases o
  · simp [truthyOpt] at h
  · rfl

theorem normalizeVal_normalized (now : String) (val : JVal) :
    recNormalized (normalizeVal now val) := by
  cases hc : (val.truthy && val.isObjTy) with
  | false =>
    unfold normalizeVal
    rw [hc, if_neg (by decide : ¬ (false = true))]
    exact ⟨rfl, rfl, rfl, rfl⟩
  | true =>
    unfold normalizeVal
    rw [hc, if_pos rfl]
    set w1 := fillField Option.isSome "notes" (jstr "") val with hw1
    set w2 := fillField isArrayOpt "items" (jarr [] []) w1 with hw2
    set w3 := fillField isArrayOpt "tags" (jarr [] []) w2 with hw3
    set w4 := fillField truthyOpt "lastEdited" (jstr now) w3 with hw4
    have h1 : (w1.truthy && w1.isObjTy) = true :=
      truthy_objTy_fillField _ _ _ hc
    have h2 : (w2.truthy && w2.isObjTy) = true :=
      truthy_objTy_fillField _ _ _ h1
    have h3 : (w3.truthy && w3.isObjTy) = true :=
      truthy_objTy_fillField _ _ _ h2
    have hnotes : (w1.getProp "notes").isSome = true := by
      rcases fillField_getProp_self Option.isSome "notes" (jstr "") hc with
        h | ⟨h, hp⟩
      · rw [hw1, h]; rfl
      · rw [hw1, h]; exact hp
    have hitems : isArrayOpt (w2.getProp "items") = true := by
      rcases fillField_getProp_self isArrayOpt "items" (jarr [] []) h1 with
        h | ⟨h, hp⟩
      · rw [hw2, h]; rfl
      · rw [hw2, h]; exact hp
    have htags : isArrayOpt (w3.getProp "tags") = true := by
      rcases fillField_getProp_self isArrayOpt "tags" (jarr [] []) h2 with
        h | ⟨h, hp⟩
      · rw [hw3, h]; rfl
      · rw [hw3, h]; exact hp
    have hlast : (w4.getProp "lastEdited").isSome = true := by
      rcases fillField_getProp_self truthyOpt "lastEdited" (jstr now) h3 with
        h | ⟨h, hp⟩
      · rw [hw4, h]; rfl
      · rw [hw4, h]; exact truthyOpt_isSome hp
    refine ⟨?_, ?_, ?_, hlast⟩
    · unfold JVal.hasProp
      rw [fillField_getProp_ne _ _ _ _ (by decide),
        fillField_getProp_ne _ _ _ _ (by decide),
        fillField_getProp_ne _ _ _ _ (by decide)]
      exact hnotes
    · rw [fillField_getProp_ne _ _ _ _ (by decide),
        fillField_getProp_ne _ _ _ _ (by decide)]
      exact hitems
    · rw [fillField_getProp_ne _ _ _ _ (by decide)]
      exact htags

theorem importNormalize_normalized (now : String) (data : JVal) :
    recImportNormalized (importNormalize now data) := by
  cases hc : (data.truthy && data.isObjTy) with
  | false =>
    unfold importNormalize
    rw [hc, if_pos (by decide : (!false) = true)]
    exact ⟨rfl, rfl, rfl⟩
  | true =>
    unfold importNormalize
    rw [hc, if_neg (by decide : ¬ ((!true) = true))]
    set w1 := fillField Option.isSome "notes" (jstr "") data with hw1
    set w2 := fillField isArrayOpt "items" (jarr [] []) w1 with hw2
    set w3 := fillField truthyOpt "lastEdited" (jstr now) w2 with hw3
    have h1 : (w1.truthy && w1.isObjTy) = true :=
      truthy_objTy_fillField _ _ _ hc
    have h2 : (w2.truthy && w2.isObjTy) = true :=
      truthy_objTy_fillField _ _ _ h1
    have hnotes : (w1.getProp "notes").isSome = true := by
      rcases fillField_getProp_self Option.isSome "notes" (jstr "") hc with
        h | ⟨h, hp⟩
      · rw [hw1, h]; rfl
      · rw [hw1, h]; exact hp
    have hitems : isArrayOpt (w2.getProp "items") = true := by
      rcases fillField_getProp_self isArrayOpt "items" (jarr [] []) h1 with
        h | ⟨h, hp⟩
      · rw [hw2, h]; rfl
      · rw [hw2, h]; exact hp
    have hlast : (w3.getProp "lastEdited").isSome = true := by
      rcases fillField_getProp_self truthyOpt "lastEdited" (jstr now) h2 with
        h | ⟨h, hp⟩
      · rw [hw3, h]; rfl
      · rw [hw3, h]; exact truthyOpt_isSome hp
    refine ⟨?_, ?_, hlast⟩
    · unfold JVal.hasProp
      rw [fillField_getProp_ne _ _ _ _ (by decide),
        fillField_getProp_ne _ _ _ _ (by decide)]
      exact hnotes
    · rw [fillField_getProp_ne _ _ _ _ (by decide)]
      exact hitems

/-!  Helper lemmas: the import fold. -/

theorem getEntry_importOne (now : String) (imgs : List (String × String))
    (st : List (String × JVal)) (entry : String × JVal) {k : String}
    (h : jsHas st k = true) :
    getEntry (importOne now imgs st entry) k = getEntry st k := by
  have hne : k ≠ importTarget st entry.1 := by
    intro he
    have hf := importTarget_not_has st entry.1
    rw [← he, h] at hf
    cases hf
  unfold importOne
  exact getEntry_setEntry_ne _ hne _

theorem getEntry_importComps (payload : List (String × JVal))
    (st : List (String × JVal)) (imgs : List (String × String)) (now : String)
    {k : String} (h : jsHas st k = true) :
    getEntry (importComps st payload imgs now) k = getEntry st k := by
  induction payload generalizing st with
  | nil => rfl
  | cons e rest ih =>
    have h1 := getEntry_importOne now imgs st e h
    have h2 : jsHas (importOne now imgs st e) k = true := by
      unfold jsHas
      rw [h1]
      exact h
    calc getEntry (importComps (importOne now imgs st e) rest imgs now) k
        = getEntry (importOne now imgs st e) k := ih _ h2
      _ = getEntry st k := h1

theorem mem_importComps (payload : List (String × JVal))
    (st : List (String × JVal)) (imgs : List (String × String)) (now : String)
    {p : String × JVal} (h : p ∈ importComps st payload imgs now) :
    p ∈ st ∨ recImportNormalized p.2 := by
  induction payload generalizing st with
  | nil => exact Or.inl h
  | cons e rest ih =>
    rcases ih (importOne now imgs st e) h with h' | h'
    · rcases mem_setEntry h' with h'' | h''
      · exact Or.inl h''
      · right
        rw [h'']
        exact importNormalize_normalized now (importRewrite imgs e.2)
    · exact Or.inr h'

/-!  Helper lemmas: search and planner. -/

theorem plannerSelected_empty {rawInput : String}
    (h : strLower (strTrim rawInput) = "") : plannerSelected rawInput = [] := by
  unfold plannerSelected
  rw [h]
  rfl

theorem compMatchesSearch_iff (name : String) (r : CompRecord) (q : String) :
    compMatchesSearch name r q = true ↔
      (strTrim q ≠ "" → ∀ tok ∈ getSearchTokens q, specTokenMatch name r tok) := by
  unfold compMatchesSearch
  by_cases hq : strTrim q = ""
  · simp [hq]
  · rw [if_neg hq]
    by_cases ht : (getSearchTokens q).isEmpty
    · rw [if_pos ht]
      have hemp : getSearchTokens q = [] := List.isEmpty_iff.1 ht
      simp [hemp]
    · rw [if_neg ht]
      simp only [List.all_eq_true, Bool.or_eq_true, List.any_eq_true,
        List.mem_map, specTokenMatch, ne_eq, hq, not_false_iff, true_implies]
      constructor
      · intro h tok htok
        rcases h tok htok with ((h1 | h1) | ⟨x, ⟨it, hit, rfl⟩, hinc⟩) |
          ⟨x, ⟨tg, htg, rfl⟩, hinc⟩
        · exact Or.inl h1
        · exact Or.inr (Or.inl h1)
        · exact Or.inr (Or.inr (Or.inl ⟨it, hit, hinc⟩))
        · exact Or.inr (Or.inr (Or.inr ⟨tg, htg, hinc⟩))
      · intro h tok htok
        rcases h tok htok with h1 | h1 | ⟨it, hit, hinc⟩ | ⟨tg, htg, hinc⟩
        · exact Or.inl (Or.inl (Or.inl h1))
        · exact Or.inl (Or.inl (Or.inr h1))
        · exact Or.inl (Or.inr ⟨_, ⟨it, hit, rfl⟩, hinc⟩)
        · exact Or.inr ⟨_, ⟨tg, htg, rfl⟩, hinc⟩

theorem navFilterPred_iff (q tagF : String) (p : String × CompRecord) :
    navFilterPred q tagF p = true ↔
      ((strTrim q ≠ "" → ∀ tok ∈ getSearchTokens q, specTokenMatch p.1 p.2 tok) ∧
       (strTrim tagF ≠ "" → strLower tagF ∈ p.2.tags.map strLower)) := by
  unfold navFilterPred
  have htag : ((if tagF ≠ "" && strTrim tagF ≠ "" then
      (p.2.tags.map strLower).contains (strLower tagF) else true) = true) ↔
      (strTrim tagF ≠ "" → strLower tagF ∈ p.2.tags.map strLower) := by
    by_cases h0 : strTrim tagF = ""
    · have h1 : (tagF ≠ "" && strTrim tagF ≠ "") = false := by
        simp [h0]
      simp [h1, h0]
    · have h2 : tagF ≠ "" := by
        intro he
        rw [he] at h0
        exact h0 rfl
      have h1 : (tagF ≠ "" && strTrim tagF ≠ "") = true := by
        simp [h0, h2]
      rw [if_pos h1]
      rw [List.elem_iff]
      simp [h0]
  by_cases hq : strTrim q = ""
  · have h1 : (q ≠ "" && strTrim q ≠ "" && !compMatchesSearch p.1 p.2 q) = false := by
      simp [hq]
    rw [h1, if_neg (by decide : ¬ (false = true)), htag]
    constructor
    · intro h
      exact ⟨fun hc => absurd hq hc, h⟩
    · intro h
      exact h.2
  · have h2 : q ≠ "" := by
      intro he
      rw [he] at hq
      exact hq rfl
    by_cases hm : compMatchesSearch p.1 p.2 q = true
    · have h1 : (q ≠ "" && strTrim q ≠ "" && !compMatchesSearch p.1 p.2 q) = false := by
        simp [hq, h2, hm]
      rw [h1, if_neg (by decide : ¬ (false = true)), htag]
      constructor
      · intro h
        exact ⟨(compMatchesSearch_iff p.1 p.2 q).1 hm, h⟩
      · intro h
        exact h.2
    · have h1 : (q ≠ "" && strTrim q ≠ "" && !compMatchesSearch p.1 p.2 q) = true := by
        simp only [Bool.and_eq_true, decide_eq_true_iff, Bool.not_eq_true']
        refine ⟨⟨h2, hq⟩, ?_⟩
        cases h : compMatchesSearch p.1 p.2 q
        · rfl
        · exact absurd h hm
      rw [h1, if_pos rfl]
      constructor
      · intro h
        cases h
      · rintro ⟨hs, _⟩
        exact absurd ((compMatchesSearch_iff p.1 p.2 q).2 hs) hm

/-!  Claim theorems. -/

/-- C1 (amended): after Load every record in the in-memory store is a
structured record that has a `notes` field (a bare-string record becomes
a record with that string as `notes`), whose `items` and `tags` are
arrays, and whose `lastEdited` is present.  (The original claim's
"`notes` is a string" fails: the code's check is presence, not type, so
a present non-string `notes` is left unchanged — see the
counterexample.) -/
theorem load_normalization_totality_amended (disk : DiskFile) (now : String)
    (wk : Bool) :
    (∀ p ∈ (loadNotes disk now wk).1, recNormalized p.2) ∧
    (∀ s, normalizeVal now (jstr s) =
      jobj [("notes", jstr s), ("items", jarr [] []), ("tags", jarr [] []),
            ("lastEdited", jstr now)]) := by
  constructor
  · intro p hp
    match disk with
    | .missing =>
      cases wk <;> simp [loadNotes] at hp
    | .corrupt raw =>
      simp [loadNotes] at hp
    | .parsed v =>
      simp only [loadNotes] at hp
      cases hv : (v.truthy && v.isObjTy) with
      | false =>
        rw [hv, if_neg (by decide : ¬ (false = true))] at hp
        simp at hp
      | true =>
        rw [hv, if_pos rfl] at hp
        have hp' : p ∈ (topEntries v).map
            (fun q => (q.1, normalizeVal now q.2)) := hp
        rcases List.mem_map.1 hp' with ⟨q, _, rfl⟩
        exact normalizeVal_normalized now q.2
  · intro s
    have hc : ((jstr s).truthy && (jstr s).isObjTy) = false := by
      simp [JVal.isObjTy]
    unfold normalizeVal
    rw [hc, if_neg (by decide : ¬ (false = true))]

/-- C1 witness: a bare-string record is upgraded to a structured record
satisfying the full invariant. -/
theorem load_normalization_totality_witness :
    ("y", jobj [("notes", jstr "hi"), ("items", jarr [] []),
      ("tags", jarr [] []), ("lastEdited", jstr "T0")]) ∈
        (loadNotes (.parsed (jobj [("y", jstr "hi")])) "T0" true).1 ∧
    recNormalized (jobj [("notes", jstr "hi"), ("items", jarr [] []),
      ("tags", jarr [] []), ("lastEdited", jstr "T0")]) := by
  have hm : ("y", jobj [("notes", jstr "hi"), ("items", jarr [] []),
      ("tags", jarr [] []), ("lastEdited", jstr "T0")]) ∈
        (loadNotes (.parsed (jobj [("y", jstr "hi")])) "T0" true).1 := by
    show _ ∈ [("y", jobj [("notes", jstr "hi"), ("items", jarr [] []),
      ("tags", jarr [] []), ("lastEdited", jstr "T0")])]
    exact List.mem_singleton.2 rfl
  exact ⟨hm,
    (load_normalization_totality_amended (.parsed (jobj [("y", jstr "hi")]))
      "T0" true).1 _ hm⟩

/-- C1 counterexample: a record whose `notes` field is the number 42 is
loaded with that non-string `notes` intact, refuting "every record […]
whose `notes` is a string". -/
theorem load_normalization_notes_counterexample :
    getEntry (loadNotes (.parsed (jobj [("x", jobj [("notes", jnum 42)])]))
        "T0" true).1 "x"
      = some (jobj [("notes", jnum 42), ("items", jarr [] []),
          ("tags", jarr [] []), ("lastEdited", jstr "T0")]) ∧
    JVal.isStr (jnum 42) = false :=
  ⟨rfl, rfl⟩

/-- C2: deleting from a one-record store fails with the last-record error
and changes neither the in-memory store nor the file; deleting a present
name from a store with at least two records (with distinct keys) removes
exactly that record, in memory and in the written file. -/
theorem delete_guard (s : AppState) (comp : String) (wk : Bool) (d : JVal) :
    (s.store.length = 1 → deleteComp s comp wk = (.lastRecord, s)) ∧
    (2 ≤ s.store.length → getEntry s.store comp = some d →
      deleteComp s comp true =
        (.ok, ⟨delEntry s.store comp, delEntry s.store comp⟩) ∧
      getEntry (delEntry s.store comp) comp = none ∧
      ∀ k, k ≠ comp → getEntry (delEntry s.store comp) k = getEntry s.store k) := by
  constructor
  · intro h1
    unfold deleteComp
    rw [if_pos (by omega)]
  · intro h2 hget
    refine ⟨?_, getEntry_delEntry_self s.store comp,
      fun k hk => getEntry_delEntry_ne s.store hk⟩
    unfold deleteComp
    rw [if_neg (by omega), hget]
    rfl

/-- C2 witness: the guard fires on a one-record store; a two-record store
loses exactly the deleted record. -/
theorem delete_guard_witness :
    deleteComp ⟨[("a", jobj [])], [("a", jobj [])]⟩ "a" true
      = (.lastRecord, ⟨[("a", jobj [])], [("a", jobj [])]⟩) ∧
    deleteComp ⟨[("a", jobj []), ("b", jobj [])],
                [("a", jobj []), ("b", jobj [])]⟩ "a" true
      = (.ok, ⟨[("b", jobj [])], [("b", jobj [])]⟩) := by
  constructor
  · exact (delete_guard ⟨[("a", jobj [])], [("a", jobj [])]⟩ "a" true
      (jobj [])).1 rfl
  · exact ((delete_guard ⟨[("a", jobj []), ("b", jobj [])],
      [("a", jobj []), ("b", jobj [])]⟩ "a" true (jobj [])).2
      (by decide) rfl).1

/-- C3 (amended): a failed write during Delete rolls the in-memory store
back to the pre-mutation mapping and leaves the disk untouched; a failed
write during Rename does NOT roll back — the record stays under the new
key in memory (old key gone, `lastEdited` bumped) while the disk keeps
the old state, so store and file diverge.  (The original claim's "both
operations roll back" fails for Rename — see the counterexample.) -/
theorem rollback_atomicity_amended (s : AppState)
    (comp oldKey newRaw now : String) (d rec : JVal) :
    (2 ≤ s.store.length → getEntry s.store comp = some d →
      deleteComp s comp false =
        (.writeFailed, ⟨setEntry (delEntry s.store comp) comp d, s.disk⟩) ∧
      ∀ k, getEntry (setEntry (delEntry s.store comp) comp d) k
        = getEntry s.store k) ∧
    (strLower (strTrim newRaw) ≠ "" → strLower (strTrim newRaw) ≠ oldKey →
     jsHas s.store (strLower (strTrim newRaw)) = false →
     getEntry s.store oldKey = some rec →
      (finishRename s oldKey newRaw now false).1 = .writeFailed ∧
      (finishRename s oldKey newRaw now false).2.disk = s.disk ∧
      getEntry (finishRename s oldKey newRaw now false).2.store oldKey
        = none ∧
      getEntry (finishRename s oldKey newRaw now false).2.store
        (strLower (strTrim newRaw))
        = some (rec.setProp "lastEdited" (jstr now))) := by
  constructor
  · intro h2 hget
    constructor
    · unfold deleteComp
      rw [if_neg (by omega), hget]
      rfl
    · intro k
      by_cases hk : k = comp
      · rw [hk, getEntry_setEntry_self, hget]
      · rw [getEntry_setEntry_ne _ hk, getEntry_delEntry_ne _ hk]
  · intro h1 h2 h3 hget
    have hren : finishRename s oldKey newRaw now false =
        (.writeFailed,
         ⟨delEntry (setEntry s.store (strLower (strTrim newRaw))
            (rec.setProp "lastEdited" (jstr now))) oldKey, s.disk⟩) := by
      simp only [finishRename]
      rw [if_neg h1, if_neg h2, if_neg (by rw [h3]; decide), hget]
      rfl
    rw [hren]
    refine ⟨rfl, rfl, getEntry_delEntry_self _ _, ?_⟩
    rw [getEntry_delEntry_ne _ h2, getEntry_setEntry_self]

/-- C3 witness: concrete failed-write delete (rolled back) and failed-write
rename (old key vanished from memory). -/
theorem rollback_atomicity_witness :
    (∀ k, getEntry (setEntry (delEntry
        [("a", jobj []), ("b", jobj [])] "a") "a" (jobj [])) k
      = getEntry [("a", jobj []), ("b", jobj [])] k) ∧
    getEntry (finishRename ⟨[("a", jobj []), ("b", jobj [])],
        [("a", jobj []), ("b", jobj [])]⟩ "a" "c" "T1" false).2.store "a"
      = none := by
  constructor
  · exact ((rollback_atomicity_amended
      ⟨[("a", jobj []), ("b", jobj [])], [("a", jobj []), ("b", jobj [])]⟩
      "a" "a" "c" "T1" (jobj []) (jobj [])).1 (by decide) rfl).2
  · exact ((rollback_atomicity_amended
      ⟨[("a", jobj []), ("b", jobj [])], [("a", jobj []), ("b", jobj [])]⟩
      "a" "a" "c" "T1" (jobj []) (jobj [])).2 (by decide) (by decide)
      rfl rfl).2.2.1

/-- C3 counterexample: a failed write during Rename reports an error while
the in-memory store no longer has the old key — but the on-disk state
still does, so the in-memory store is not rolled back to the state the
file holds. -/
theorem rename_rollback_counterexample :
    (finishRename ⟨[("a", jobj []), ("b", jobj [])],
        [("a", jobj []), ("b", jobj [])]⟩ "a" "c" "T1" false).1
      = .writeFailed ∧
    getEntry (finishRename ⟨[("a", jobj []), ("b", jobj [])],
        [("a", jobj []), ("b", jobj [])]⟩ "a" "c" "T1" false).2.store "a"
      = none ∧
    getEntry (finishRename ⟨[("a", jobj []), ("b", jobj [])],
        [("a", jobj []), ("b", jobj [])]⟩ "a" "c" "T1" false).2.disk "a"
      = some (jobj []) :=
  ⟨rfl, rfl, rfl⟩

/-- C4: the clipboard import never touches records already in the store
(their lookups are unchanged by the whole merge); a free payload name is
used verbatim; an occupied payload name gets the first free candidate in
the sequence `name-imported`, `name-imported-2`, …; and each imported
comp lands under its collision-safe target name. -/
theorem import_collision_safety (st : List (String × JVal))
    (payload : List (String × JVal)) (imgs : List (String × String))
    (now : String) :
    (∀ k, jsHas st k = true →
      getEntry (importComps st payload imgs now) k = getEntry st k) ∧
    (∀ (st' : List (String × JVal)) (name : String),
      jsHas st' name = false → importTarget st' name = name) ∧
    (∀ (st' : List (String × JVal)) (name : String), jsHas st' name = true →
      ∃ i, 1 ≤ i ∧ importTarget st' name = candName name i ∧
        jsHas st' (candName name i) = false ∧
        ∀ j, 1 ≤ j → j < i → jsHas st' (candName name j) = true) ∧
    (∀ (st' : List (String × JVal)) (e : String × JVal),
      getEntry (importOne now imgs st' e) (importTarget st' e.1)
        = some (importNormalize now (importRewrite imgs e.2))) := by
  refine ⟨?_, ?_, ?_, ?_⟩
  · intro k hk
    exact getEntry_importComps payload st imgs now hk
  · intro st' name h
    exact importTarget_of_free h
  · intro st' name h
    exact importTarget_spec_occupied h
  · intro st' e
    unfold importOne
    exact getEntry_setEntry_self _ _ _

/-- C4 witness: importing `a` over an existing `a` leaves the original
record intact; a free name is kept; an occupied name gets an `-imported`
candidate name. -/
theorem import_collision_safety_witness :
    getEntry (importComps [("a", jobj [("notes", jstr "keep")])]
        [("a", jstr "x")] [] "T") "a" = some (jobj [("notes", jstr "keep")]) ∧
    importTarget [("a", jobj [])] "b" = "b" ∧
    (∃ i, 1 ≤ i ∧ importTarget [("a", jobj [])] "a" = candName "a" i ∧
      jsHas [("a", jobj [])] (candName "a" i) = false ∧
      ∀ j, 1 ≤ j → j < i → jsHas [("a", jobj [])] (candName "a" j) = true) := by
  refine ⟨?_, ?_, ?_⟩
  · exact (import_collision_safety [("a", jobj [("notes", jstr "keep")])]
      [("a", jstr "x")] [] "T").1 "a" rfl
  · exact (import_collision_safety [] [] [] "T").2.1 [("a", jobj [])] "b" rfl
  · exact (import_collision_safety [] [] [] "T").2.2.1 [("a", jobj [])] "a" rfl

/-- C5: the navigation query returns a name-sorted sequence, and a record
is shown exactly when it is in the store, every search token matches the
name, the tag-stripped notes, an item or a tag, and (with an active tag
filter) the record's tags contain the filter case-insensitively; empty
filters match every record. -/
theorem search_conjunction (st : List (String × CompRecord)) (q tagF : String) :
    List.Sorted keyLe (queryComps st q tagF) ∧
    ∀ nm r, ((nm, r) ∈ queryComps st q tagF ↔
      ((nm, r) ∈ st ∧
       (strTrim q ≠ "" → ∀ tok ∈ getSearchTokens q, specTokenMatch nm r tok) ∧
       (strTrim tagF ≠ "" → strLower tagF ∈ r.tags.map strLower))) := by
  constructor
  · unfold queryComps sortByName
    exact List.Pairwise.filter _ (List.sorted_insertionSort keyLe st)
  · intro nm r
    have hperm := (List.perm_insertionSort keyLe st).mem_iff (a := (nm, r))
    rw [queryComps, List.mem_filter, navFilterPred_iff]
    constructor
    · rintro ⟨hmem, hpred⟩
      exact ⟨hperm.1 hmem, hpred.1, hpred.2⟩
    · rintro ⟨hmem, hs, htg⟩
      exact ⟨hperm.2 hmem, hs, htg⟩

/-- C6: with a non-empty owned-item list, the planner shows exactly the
records whose `items` contain, case-insensitively, every owned item (the
owned set must be inside the comp's items, not the reverse). -/
theorem planner_subset (st : List (String × CompRecord)) (rawInput : String)
    (h : plannerSelected rawInput ≠ []) :
    ∃ res, plannerResults st rawInput = some res ∧
      ∀ nm r, ((nm, r) ∈ res ↔
        ((nm, r) ∈ st ∧ ∀ owned ∈ plannerSelected rawInput,
          ∃ it ∈ r.items, strLower it = owned)) := by
  have hg : ¬ (strLower (strTrim rawInput) = "") := fun hg =>
    h (plannerSelected_empty hg)
  refine ⟨st.filter (fun p => (plannerSelected rawInput).all
      (fun item => (p.2.items.map strLower).contains item)), ?_, ?_⟩
  · unfold plannerResults
    rw [if_neg hg]
  · intro nm r
    rw [List.mem_filter]
    constructor
    · rintro ⟨hmem, hpred⟩
      refine ⟨hmem, ?_⟩
      intro owned howned
      have hc := List.all_eq_true.1 hpred owned howned
      rcases List.mem_map.1 (List.elem_iff.1 hc) with ⟨it, hit, he⟩
      exact ⟨it, hit, he⟩
    · rintro ⟨hmem, hall⟩
      refine ⟨hmem, List.all_eq_true.2 ?_⟩
      intro owned howned
      rcases hall owned howned with ⟨it, hit, he⟩
      exact List.elem_iff.2 (List.mem_map.2 ⟨it, hit, he⟩)

/-- C6 witness: the record with items `["Sword","Bow"]` matches the owned
lists `sword` and `sword, bow` but not `sword, rod`. -/
theorem planner_subset_witness :
    plannerSelected "sword, bow" ≠ [] ∧
    (∃ res, plannerResults
        [("blade-ace", (⟨"", ["Sword", "Bow"], [], "T0"⟩ : CompRecord))]
        "sword, bow" = some res ∧
      ∀ nm r, ((nm, r) ∈ res ↔
        ((nm, r) ∈ [("blade-ace",
            (⟨"", ["Sword", "Bow"], [], "T0"⟩ : CompRecord))] ∧
          ∀ owned ∈ plannerSelected "sword, bow",
            ∃ it ∈ r.items, strLower it = owned))) ∧
    plannerResults [("blade-ace", (⟨"", ["Sword", "Bow"], [], "T0"⟩ : CompRecord))]
        "sword"
      = some [("blade-ace", (⟨"", ["Sword", "Bow"], [], "T0"⟩ : CompRecord))] ∧
    plannerResults [("blade-ace", (⟨"", ["Sword", "Bow"], [], "T0"⟩ : CompRecord))]
        "sword, rod" = some [] :=
  ⟨by decide,
   planner_subset [("blade-ace", (⟨"", ["Sword", "Bow"], [], "T0"⟩ : CompRecord))]
     "sword, bow" (by decide),
   by decide, by decide⟩

/-- C7 (amended): when the notes file is missing, Load initializes the
empty store and writes it out; when the file is present but does not
parse, Load initializes the empty in-memory store but performs no write,
so the file keeps its corrupt content.  (The original claim's "in both
failure cases the file afterwards contains the empty store" fails for the
parse-failure case — see the counterexample.) -/
theorem load_failure_recovery_amended (now raw : String) (wk : Bool) :
    loadNotes .missing now true = ([], .parsed (jobj [])) ∧
    loadNotes (.corrupt raw) now wk = ([], .corrupt raw) :=
  ⟨rfl, rfl⟩

/-- C7 counterexample: after a parse failure the store is empty in memory
but the file still holds the corrupt text, not the empty store. -/
theorem load_failure_recovery_counterexample :
    loadNotes (.corrupt "oops") "T0" true = ([], .corrupt "oops") ∧
    DiskFile.corrupt "oops" ≠ DiskFile.parsed (jobj []) := by
  refine ⟨rfl, ?_⟩
  intro h
  cases h

/-- C8 (amended): every record of the merged store the import persists
either was already present or is import-normalized: `notes` present,
`items` an array and `lastEdited` present.  Unlike Load's rules, this
normalization on import never fills `tags`, so an imported record may be
persisted without a `tags` field (see the counterexample); `notes` is
only guaranteed present, not a string. -/
theorem import_normalization_amended (st : List (String × JVal))
    (payload : List (String × JVal)) (imgs : List (String × String))
    (now : String) :
    ∀ p ∈ importComps st payload imgs now, p ∈ st ∨ recImportNormalized p.2 :=
  fun _ hp => mem_importComps payload st imgs now hp

/-- C8 witness: an imported empty-object record is persisted with `notes`,
`items` and `lastEdited` filled. -/
theorem import_normalization_witness :
    ("b", jobj [("notes", jstr ""), ("items", jarr [] []),
      ("lastEdited", jstr "T")]) ∈ importComps [] [("b", jobj [])] [] "T" ∧
    (("b", jobj [("notes", jstr ""), ("items", jarr [] []),
        ("lastEdited", jstr "T")]) ∈ ([] : List (String × JVal)) ∨
      recImportNormalized (jobj [("notes", jstr ""), ("items", jarr [] []),
        ("lastEdited", jstr "T")])) := by
  have hm : ("b", jobj [("notes", jstr ""), ("items", jarr [] []),
      ("lastEdited", jstr "T")]) ∈ importComps [] [("b", jobj [])] [] "T" := by
    show _ ∈ [("b", jobj [("notes", jstr ""), ("items", jarr [] []),
      ("lastEdited", jstr "T")])]
    exact List.mem_singleton.2 rfl
  exact ⟨hm, import_normalization_amended [] [("b", jobj [])] [] "T" _ hm⟩

/-- C8 counterexample: a bare-string imported record is persisted with no
`tags` field at all, refuting "every imported record has […] `tags` an
array" in the store the import writes. -/
theorem import_tags_counterexample :
    importComps [] [("a", jstr "hello")] [] "T"
      = [("a", jobj [("notes", jstr "hello"), ("items", jarr [] []),
          ("lastEdited", jstr "T")])] ∧
    (jobj [("notes", jstr "hello"), ("items", jarr [] []),
      ("lastEdited", jstr "T")]).hasProp "tags" = false :=
  ⟨rfl, rfl⟩

/-- C9 (amended): Add and Rename insert only the lowercased (and trimmed)
form of the typed name, but clipboard Import inserts the payload name
verbatim (a free payload name becomes the key unchanged), so store keys
need not be lowercase after an import — see the counterexample. -/
theorem lowercase_keys_amended (s : AppState)
    (rawName oldKey newRaw now : String) (wk : Bool) :
    ((addComp s rawName now wk).2.store = s.store ∨
      (addComp s rawName now wk).2.store =
        setEntry s.store (strLower (strTrim rawName)) (freshRecord now)) ∧
    ((finishRename s oldKey newRaw now wk).2.store = s.store ∨
      ∃ rec : JVal, (finishRename s oldKey newRaw now wk).2.store =
        delEntry (setEntry s.store (strLower (strTrim newRaw))
          (rec.setProp "lastEdited" (jstr now))) oldKey) ∧
    (∀ (st' : List (String × JVal)) (name : String), jsHas st' name = false →
      importTarget st' name = name) := by
  refine ⟨?_, ?_, fun st' name h => importTarget_of_free h⟩
  · simp only [addComp]
    by_cases h1 : strTrim rawName = ""
    · rw [if_pos h1]
      exact Or.inl rfl
    · rw [if_neg h1]
      by_cases h2 : jsHas s.store (strLower (strTrim rawName)) = true
      · rw [if_pos h2]
        exact Or.inl rfl
      · rw [if_neg h2]
        cases wk
        · exact Or.inr rfl
        · exact Or.inr rfl
  · simp only [finishRename]
    by_cases h1 : strLower (strTrim newRaw) = ""
    · rw [if_pos h1]
      exact Or.inl rfl
    · rw [if_neg h1]
      by_cases h2 : strLower (strTrim newRaw) = oldKey
      · rw [if_pos h2]
        exact Or.inl rfl
      · rw [if_neg h2]
        by_cases h3 : jsHas s.store (strLower (strTrim newRaw)) = true
        · rw [if_pos h3]
          exact Or.inl rfl
        · rw [if_neg h3]
          rcases hgo : getEntry s.store oldKey with _ | rec
          · exact Or.inl rfl
          · cases wk
            · exact Or.inr ⟨rec, rfl⟩
            · exact Or.inr ⟨rec, rfl⟩

/-- C9 witness: a successful Add inserts the trimmed, lowercased key;
Import keeps a free payload name verbatim. -/
theorem lowercase_keys_witness :
    ((addComp ⟨[], []⟩ " New-Comp " "T" true).2.store
        = ([] : List (String × JVal)) ∨
      (addComp ⟨[], []⟩ " New-Comp " "T" true).2.store
        = setEntry [] (strLower (strTrim " New-Comp ")) (freshRecord "T")) ∧
    importTarget ([] : List (String × JVal)) "Foo" = "Foo" :=
  ⟨(lowercase_keys_amended ⟨[], []⟩ " New-Comp " "x" "y" "T" true).1,
   (lowercase_keys_amended ⟨[], []⟩ " New-Comp " "x" "y" "T" true).2.2
     [] "Foo" rfl⟩

/-- C9 counterexample: importing a payload keyed "Foo" into the empty
store persists the key "Foo", which is not lowercase — refuting "every
operation that inserts a key inserts it case-normalized to lowercase". -/
theorem import_uppercase_key_counterexample :
    (importComps [] [("Foo", jobj [])] [] "T").map Prod.fst = ["Foo"] ∧
    strLower "Foo" ≠ "Foo" :=
  ⟨rfl, by decide⟩

/-- C10 (amended): renaming a comp with a non-empty name to a new name
that trims and lowercases to the old name reports success and leaves the
store, the record and the file completely unchanged (no write).  For the
degenerate empty comp name the code instead reports an invalid-name
failure (still changing nothing) — see the counterexample. -/
theorem rename_same_name_noop_amended (s : AppState)
    (oldKey newRaw now : String) (wk : Bool)
    (h : strLower (strTrim newRaw) = oldKey) (h0 : oldKey ≠ "") :
    finishRename s oldKey newRaw now wk = (.ok, s) := by
  simp only [finishRename, h]
  rw [if_neg h0, if_pos trivial]

/-- C10 witness: renaming "blade-ace" to "  Blade-Ace " succeeds and
changes nothing. -/
theorem rename_same_name_noop_witness :
    finishRename ⟨[("blade-ace", jobj [])], [("blade-ace", jobj [])]⟩
        "blade-ace" "  Blade-Ace " "T1" true
      = (.ok, ⟨[("blade-ace", jobj [])], [("blade-ace", jobj [])]⟩) :=
  rename_same_name_noop_amended
    ⟨[("blade-ace", jobj [])], [("blade-ace", jobj [])]⟩
    "blade-ace" "  Blade-Ace " "T1" true (by decide) (by decide)

/-- C10 counterexample: for the empty comp name, a new name trimming to
the old (empty) name is reported as an invalid name, not success. -/
theorem rename_empty_name_counterexample :
    strLower (strTrim "  ") = "" ∧
    (finishRename ⟨[("", jobj [])], [("", jobj [])]⟩ "" "  " "T1" true).1
      = .invalidName ∧
    OpResult.invalidName ≠ OpResult.ok :=
  ⟨by decide, rfl, by decide⟩

end TftApp
